import Mathlib

/-!
Verification of the laser-trainer core (corner canonicalization, laser
detection, shot scoring, and the session/round state machine) against its
natural-language specification.  The definitions are a shallow embedding of
the LaserTrainer component: JS numbers on the pipeline's data paths are
modelled as rationals (and, for the distance-based scoring formula, as
reals), timestamps as integers in milliseconds, and the per-frame loop plus
user commands and timer callbacks as an explicit event-step function on the
component's state.
-/

namespace LaserTrainer

/-- A 2D point, camera-space or logical-plane, as a pair of rationals. -/
abbrev Point : Type := ℚ × ℚ

/-- Sum x + y attached to each corner candidate in lockTarget. -/
def cornerSum (p : Point) : ℚ := p.1 + p.2

/-- Difference y - x attached to each corner candidate in lockTarget. -/
def cornerDiff (p : Point) : ℚ := p.2 - p.1

/-- Model of the reduce in lockTarget that keeps curr when f curr < f prev,
seeded with the first element: computes tl (f = sum) and tr (f = diff).
Ties keep prev, i.e. the first occurrence in input order. -/
def selMin (f : Point → ℚ) (l : List Point) : Point :=
  l.foldl (fun prev curr => if f curr < f prev then curr else prev) l.headI

/-- Model of the reduce in lockTarget that keeps curr when f curr > f prev,
seeded with the first element: computes br (f = sum) and bl (f = diff). -/
def selMax (f : Point → ℚ) (l : List Point) : Point :=
  l.foldl (fun prev curr => if f prev < f curr then curr else prev) l.headI

/-- Corner canonicalization performed inline by lockTarget, returned in the
order (tl, tr, br, bl) in which lockTarget feeds the corners to the
perspective-transform call. -/
def orderCorners (l : List Point) : Point × Point × Point × Point :=
  (selMin cornerSum l, selMin cornerDiff l, selMax cornerSum l, selMax cornerDiff l)

lemma headI_mem {l : List Point} (h : l ≠ []) : l.headI ∈ l := by
  cases l with
  | nil => exact absurd rfl h
  | cons p rest => simp [List.headI]

lemma foldl_choice_mem (choice : Point → Point → Point)
    (hch : ∀ p c, choice p c = p ∨ choice p c = c) :
    ∀ (l : List Point) (a : Point), l.foldl choice a ∈ a :: l := by
  intro l
  induction l with
  | nil => intro a; simp
  | cons p rest ih =>
    intro a
    have hmem := ih (choice a p)
    rw [List.foldl_cons]
    rcases List.mem_cons.mp hmem with he | hm
    · rcases hch a p with h1 | h1
      · rw [he, h1]
        exact List.mem_cons_self _ _
      · rw [he, h1]
        exact List.mem_cons.mpr (Or.inr (List.mem_cons_self _ _))
    · exact List.mem_cons.mpr (Or.inr (List.mem_cons.mpr (Or.inr hm)))

lemma foldl_selMin_le (f : Point → ℚ) :
    ∀ (l : List Point) (a : Point),
      f (l.foldl (fun prev curr => if f curr < f prev then curr else prev) a) ≤ f a ∧
      ∀ x ∈ l, f (l.foldl (fun prev curr => if f curr < f prev then curr else prev) a) ≤ f x := by
  intro l
  induction l with
  | nil => intro a; exact ⟨le_refl _, by simp⟩
  | cons p rest ih =>
    intro a
    rw [List.foldl_cons]
    have hb : f (if f p < f a then p else a) ≤ f a ∧ f (if f p < f a then p else a) ≤ f p := by
      by_cases h : f p < f a
      · rw [if_pos h]; exact ⟨le_of_lt h, le_refl _⟩
      · rw [if_neg h]; exact ⟨le_refl _, not_lt.mp h⟩
    rcases ih (if f p < f a then p else a) with ⟨h1, h2⟩
    refine ⟨le_trans h1 hb.1, ?_⟩
    intro x hx
    rcases List.mem_cons.mp hx with he | hm
    · rw [he]
      exact le_trans h1 hb.2
    · exact h2 x hm

lemma foldl_selMax_ge (f : Point → ℚ) :
    ∀ (l : List Point) (a : Point),
      f a ≤ f (l.foldl (fun prev curr => if f prev < f curr then curr else prev) a) ∧
      ∀ x ∈ l, f x ≤ f (l.foldl (fun prev curr => if f prev < f curr then curr else prev) a) := by
  intro l
  induction l with
  | nil => intro a; exact ⟨le_refl _, by simp⟩
  | cons p rest ih =>
    intro a
    rw [List.foldl_cons]
    have hb : f a ≤ f (if f a < f p then p else a) ∧ f p ≤ f (if f a < f p then p else a) := by
      by_cases h : f a < f p
      · rw [if_pos h]; exact ⟨le_of_lt h, le_refl _⟩
      · rw [if_neg h]; exact ⟨le_refl _, not_lt.mp h⟩
    rcases ih (if f a < f p then p else a) with ⟨h1, h2⟩
    refine ⟨le_trans hb.1 h1, ?_⟩
    intro x hx
    rcases List.mem_cons.mp hx with he | hm
    · rw [he]
      exact le_trans hb.2 h1
    · exact h2 x hm

lemma selMin_mem (f : Point → ℚ) {l : List Point} (h : l ≠ []) : selMin f l ∈ l := by
  unfold selMin
  have hm := foldl_choice_mem (fun prev curr => if f curr < f prev then curr else prev)
    (fun p c => by by_cases h' : f c < f p <;> simp [h']) l l.headI
  rcases List.mem_cons.mp hm with he | hm'
  · rw [he]
    exact headI_mem h
  · exact hm'

lemma selMax_mem (f : Point → ℚ) {l : List Point} (h : l ≠ []) : selMax f l ∈ l := by
  unfold selMax
  have hm := foldl_choice_mem (fun prev curr => if f prev < f curr then curr else prev)
    (fun p c => by by_cases h' : f p < f c <;> simp [h']) l l.headI
  rcases List.mem_cons.mp hm with he | hm'
  · rw [he]
    exact headI_mem h
  · exact hm'

/-- The listed point is in the list and strictly minimizes f there. -/
def UniqueMinAt (f : Point → ℚ) (l : List Point) (a : Point) : Prop :=
  a ∈ l ∧ ∀ x ∈ l, x ≠ a → f a < f x

/-- The listed point is in the list and strictly maximizes f there. -/
def UniqueMaxAt (f : Point → ℚ) (l : List Point) (a : Point) : Prop :=
  a ∈ l ∧ ∀ x ∈ l, x ≠ a → f x < f a

lemma selMin_eq_of_unique (f : Point → ℚ) {l : List Point} {a : Point}
    (h : UniqueMinAt f l a) : selMin f l = a := by
  rcases h with ⟨ha, hu⟩
  have hne : l ≠ [] := by rintro rfl; exact absurd ha (by simp)
  by_contra hcon
  have h1 : f a < f (selMin f l) := hu _ (selMin_mem f hne) hcon
  have h2 : f (selMin f l) ≤ f a := (foldl_selMin_le f l l.headI).2 a ha
  exact absurd (lt_of_le_of_lt h2 h1) (lt_irrefl _)

lemma selMax_eq_of_unique (f : Point → ℚ) {l : List Point} {a : Point}
    (h : UniqueMaxAt f l a) : selMax f l = a := by
  rcases h with ⟨ha, hu⟩
  have hne : l ≠ [] := by rintro rfl; exact absurd ha (by simp)
  by_contra hcon
  have h1 : f (selMax f l) < f a := hu _ (selMax_mem f hne) hcon
  have h2 : f a ≤ f (selMax f l) := (foldl_selMax_ge f l l.headI).2 a ha
  exact absurd (lt_of_le_of_lt h2 h1) (lt_irrefl _)

lemma uniqueMinAt_of_perm (f : Point → ℚ) {l₁ l₂ : List Point} {a : Point}
    (hp : l₁.Perm l₂) (h : UniqueMinAt f l₁ a) : UniqueMinAt f l₂ a :=
  ⟨hp.mem_iff.mp h.1, fun x hx hne => h.2 x (hp.mem_iff.mpr hx) hne⟩

lemma uniqueMaxAt_of_perm (f : Point → ℚ) {l₁ l₂ : List Point} {a : Point}
    (hp : l₁.Perm l₂) (h : UniqueMaxAt f l₁ a) : UniqueMaxAt f l₂ a :=
  ⟨hp.mem_iff.mp h.1, fun x hx hne => h.2 x (hp.mem_iff.mpr hx) hne⟩

/-- Cross product of the vectors o→a and o→b, used to state convexity. -/
def cross2 (o a b : Point) : ℚ :=
  (a.1 - o.1) * (b.2 - o.2) - (a.2 - o.2) * (b.1 - o.1)

/-- Modelled from the spec: 4 points listed in cyclic order form a strictly
convex quadrilateral when the four consecutive cross products share one
strict sign (the source has no convexity notion of its own; the claim's
hypothesis "forming a convex quadrilateral" is stated with this predicate). -/
def isConvexCycle : List Point → Bool
  | [a, b, c, d] =>
      (decide (0 < cross2 a b c) && decide (0 < cross2 b c d) &&
        decide (0 < cross2 c d a) && decide (0 < cross2 d a b))
      || (decide (cross2 a b c < 0) && decide (cross2 b c d < 0) &&
        decide (cross2 c d a < 0) && decide (cross2 d a b < 0))
  | _ => false

/-- Claim C6, as stated, is false: a convex quadrilateral (a square rotated
by 45 degrees) with ties in x+y gives different TL/TR/BR/BL assignments for
two different input orders of the same 4 points. -/
theorem orderCorners_tie_cex :
    isConvexCycle [((1 : ℚ), (0 : ℚ)), (2, 1), (1, 2), (0, 1)] = true ∧
    List.Perm [((1 : ℚ), (0 : ℚ)), (2, 1), (1, 2), (0, 1)]
      [((0 : ℚ), (1 : ℚ)), (2, 1), (1, 2), (1, 0)] ∧
    orderCorners [((1 : ℚ), (0 : ℚ)), (2, 1), (1, 2), (0, 1)] ≠
      orderCorners [((0 : ℚ), (1 : ℚ)), (2, 1), (1, 2), (1, 0)] := by
  refine ⟨by norm_num [isConvexCycle, cross2], by decide, ?_⟩
  norm_num [orderCorners, selMin, selMax, cornerSum, cornerDiff, List.headI]

/-- Claim C6, amended: when the four extremizer roles are uniquely attained
(no ties on x+y or on y−x), the corner ordering assigns the same point to
each of the TL/TR/BR/BL roles for any permutation of the 4 input points. -/
theorem orderCorners_perm_invariant (l₁ l₂ : List Point) (a b c d : Point)
    (hperm : l₁.Perm l₂) (_hlen : l₁.length = 4)
    (h1 : UniqueMinAt cornerSum l₁ a) (h2 : UniqueMaxAt cornerSum l₁ b)
    (h3 : UniqueMinAt cornerDiff l₁ c) (h4 : UniqueMaxAt cornerDiff l₁ d) :
    orderCorners l₁ = orderCorners l₂ := by
  unfold orderCorners
  rw [selMin_eq_of_unique cornerSum h1, selMin_eq_of_unique cornerDiff h3,
    selMax_eq_of_unique cornerSum h2, selMax_eq_of_unique cornerDiff h4,
    selMin_eq_of_unique cornerSum (uniqueMinAt_of_perm cornerSum hperm h1),
    selMin_eq_of_unique cornerDiff (uniqueMinAt_of_perm cornerDiff hperm h3),
    selMax_eq_of_unique cornerSum (uniqueMaxAt_of_perm cornerSum hperm h2),
    selMax_eq_of_unique cornerDiff (uniqueMaxAt_of_perm cornerDiff hperm h4)]

/-- Witness for the amended C6 at a concrete axis-aligned quadrilateral and
a permutation of it: all four extremizers are unique and the assignment
agrees. -/
theorem orderCorners_perm_witness :
    orderCorners [((100 : ℚ), (100 : ℚ)), (500, 100), (500, 400), (100, 400)] =
      orderCorners [((100 : ℚ), (400 : ℚ)), (500, 400), (500, 100), (100, 100)] :=
  orderCorners_perm_invariant _ _ (100, 100) (500, 400) (500, 100) (100, 400)
    (by decide) (by decide)
    (by norm_num [UniqueMinAt, cornerSum])
    (by norm_num [UniqueMaxAt, cornerSum])
    (by norm_num [UniqueMinAt, cornerDiff])
    (by norm_num [UniqueMaxAt, cornerDiff])

/-- One RGBA sample of the frame buffer; the alpha channel is never read by
the scan. -/
structure Pixel where
  r : ℕ
  g : ℕ
  b : ℕ
deriving DecidableEq

/-- Laser qualification rule of the SHOOT scan: red above the brightness
threshold and red strictly dominating green and blue by the 1.5 ratio.
Over naturals, red > green * 1.5 is exactly 3 * green < 2 * red. -/
def laserQual (threshold : ℕ) (p : Pixel) : Bool :=
  decide (threshold < p.r) && decide (3 * p.g < 2 * p.r) && decide (3 * p.b < 2 * p.r)

/-- The SHOOT scan loop: the source walks the RGBA byte array in steps of
8 bytes (4 channels times a stride of 2 pixels), i.e. it visits exactly the
even pixel indices, keeping the running maximum red value and the index of
the first sampled pixel attaining it.  Here i is the pixel index of the head
of the remaining list and acc the running (maxVal, maxIdx) pair, with
maxIdx = none standing for the initial -1. -/
def scanFrom (threshold : ℕ) : ℕ → List Pixel → ℕ × Option ℕ → ℕ × Option ℕ
  | _, [], acc => acc
  | i, p :: rest, acc =>
      scanFrom threshold (i + 1) rest
        (if (decide (i % 2 = 0) && laserQual threshold p && decide (acc.1 < p.r)) = true
          then (p.r, some i) else acc)

/-- LaserPointDetector of processFrame: the pixel index of the single
brightest qualifying sampled pixel of the frame, or none. -/
def detectLaser (threshold : ℕ) (pixels : List Pixel) : Option ℕ :=
  (scanFrom threshold 0 pixels (0, none)).2

/-- Conversion of the winning pixel index to canvas coordinates, as the
source computes x = pixelIdx mod width and y = pixelIdx / width. -/
def laserCoord (width : ℕ) (pixelIdx : ℕ) : ℕ × ℕ :=
  (pixelIdx % width, pixelIdx / width)

lemma laserQual_pos {threshold : ℕ} {p : Pixel} (h : laserQual threshold p = true) :
    0 < p.r := by
  unfold laserQual at h
  rw [Bool.and_eq_true, Bool.and_eq_true] at h
  have := of_decide_eq_true h.1.1
  omega

lemma scanFrom_spec (threshold : ℕ) :
    ∀ (l : List Pixel) (i : ℕ) (acc : ℕ × Option ℕ),
      (acc.2 = none → acc.1 = 0) →
      (∀ j, acc.2 = some j → j % 2 = 0 ∧ j < i) →
      (acc.1 ≤ (scanFrom threshold i l acc).1) ∧
      ((scanFrom threshold i l acc).2 = none → acc.2 = none) ∧
      (scanFrom threshold i l acc = acc ∨
        ∃ k p, l.get? k = some p ∧ (i + k) % 2 = 0 ∧ laserQual threshold p = true ∧
          scanFrom threshold i l acc = (p.r, some (i + k)) ∧ acc.1 < p.r) ∧
      (∀ k p, l.get? k = some p → (i + k) % 2 = 0 → laserQual threshold p = true →
        p.r ≤ (scanFrom threshold i l acc).1) ∧
      (∀ k p, l.get? k = some p → (i + k) % 2 = 0 → laserQual threshold p = true →
        p.r = (scanFrom threshold i l acc).1 →
        ∃ j, (scanFrom threshold i l acc).2 = some j ∧ j ≤ i + k) := by
  intro l
  induction l with
  | nil =>
    intro i acc h1 h2
    refine ⟨le_refl _, fun h => h, Or.inl rfl, ?_, ?_⟩
    · intro k p hk
      simp at hk
    · intro k p hk
      simp at hk
  | cons p rest ih =>
    intro i acc h1 h2
    by_cases hc : (decide (i % 2 = 0) && laserQual threshold p && decide (acc.1 < p.r)) = true
    · have hparts := hc
      rw [Bool.and_eq_true, Bool.and_eq_true] at hparts
      have hi2 : i % 2 = 0 := of_decide_eq_true hparts.1.1
      have hqual : laserQual threshold p = true := hparts.1.2
      have hlt : acc.1 < p.r := of_decide_eq_true hparts.2
      have heq : scanFrom threshold i (p :: rest) acc =
          scanFrom threshold (i + 1) rest (p.r, some i) := by
        rw [scanFrom, if_pos hc]
      have hm := ih (i + 1) (p.r, some i)
        (fun h => by simp at h)
        (fun j hj => by
          rw [Option.some_inj] at hj
          exact ⟨hj ▸ hi2, hj ▸ Nat.lt_succ_self i⟩)
      rcases hm with ⟨m1, m2, m3, m4, m5⟩
      rw [heq]
      refine ⟨le_trans (le_of_lt hlt) m1, ?_, ?_, ?_, ?_⟩
      · intro h
        exact absurd (m2 h) (by simp)
      · right
        rcases m3 with hout | ⟨k, q, hk, hk2, hq, hout, hlt'⟩
        · exact ⟨0, p, by simp, by simpa using hi2, hqual, by simpa using hout, hlt⟩
        · refine ⟨k + 1, q, by simpa using hk, ?_, hq, ?_, lt_trans hlt hlt'⟩
          · have : i + (k + 1) = (i + 1) + k := by omega
            rw [this]
            exact hk2
          · have : i + (k + 1) = (i + 1) + k := by omega
            rw [this]
            exact hout
      · intro k q hk hk2 hq
        cases k with
        | zero =>
          have hq' : q = p := Eq.symm (by simpa using hk)
          rw [hq']
          exact m1
        | succ k' =>
          refine m4 k' q (by simpa using hk) ?_ hq
          have : (i + 1) + k' = i + (k' + 1) := by omega
          rw [this]
          exact hk2
      · intro k q hk hk2 hq hr
        cases k with
        | zero =>
          have hq' : q = p := Eq.symm (by simpa using hk)
          rcases m3 with hout | ⟨k', q', hk', hk2', hq'', hout, hlt'⟩
          · rw [hout]
            exact ⟨i, rfl, by omega⟩
          · rw [hout] at hr
            rw [hq'] at hr
            simp at hr
            exact absurd hlt' (by omega)
        | succ k' =>
          have h5 := m5 k' q (by simpa using hk) ?_ hq ?_
          · rcases h5 with ⟨j, hj, hjle⟩
            exact ⟨j, hj, by omega⟩
          · have : (i + 1) + k' = i + (k' + 1) := by omega
            rw [this]
            exact hk2
          · exact hr
    · have heq : scanFrom threshold i (p :: rest) acc =
          scanFrom threshold (i + 1) rest acc := by
        rw [scanFrom, if_neg hc]
      have hm := ih (i + 1) acc h1
        (fun j hj => ⟨(h2 j hj).1, Nat.lt_succ_of_lt (h2 j hj).2⟩)
      rcases hm with ⟨m1, m2, m3, m4, m5⟩
      rw [heq]
      have hnc : ¬(i % 2 = 0) ∨ laserQual threshold p = false ∨ ¬(acc.1 < p.r) := by
        by_contra hcon
        push_neg at hcon
        rcases hcon with ⟨a1, a2, a3⟩
        apply hc
        rw [Bool.and_eq_true, Bool.and_eq_true]
        exact ⟨⟨decide_eq_true a1, Bool.not_eq_false _ |>.mp a2⟩, decide_eq_true a3⟩
      refine ⟨m1, m2, ?_, ?_, ?_⟩
      · rcases m3 with hout | ⟨k, q, hk, hk2, hq, hout, hlt'⟩
        · exact Or.inl hout
        · refine Or.inr ⟨k + 1, q, by simpa using hk, ?_, hq, ?_, hlt'⟩
          · have : i + (k + 1) = (i + 1) + k := by omega
            rw [this]
            exact hk2
          · have : i + (k + 1) = (i + 1) + k := by omega
            rw [this]
            exact hout
      · intro k q hk hk2 hq
        cases k with
        | zero =>
          have hq' : q = p := Eq.symm (by simpa using hk)
          have hple : p.r ≤ acc.1 := by
            rcases hnc with h' | h' | h'
            · exact absurd (by simpa using hk2) h'
            · rw [hq'] at hq
              rw [hq] at h'
              exact absurd h' (by simp)
            · omega
          rw [hq']
          exact le_trans hple m1
        | succ k' =>
          refine m4 k' q (by simpa using hk) ?_ hq
          have : (i + 1) + k' = i + (k' + 1) := by omega
          rw [this]
          exact hk2
      · intro k q hk hk2 hq hr
        cases k with
        | zero =>
          have hq' : q = p := Eq.symm (by simpa using hk)
          have hple : p.r ≤ acc.1 := by
            rcases hnc with h' | h' | h'
            · exact absurd (by simpa using hk2) h'
            · rw [hq'] at hq
              rw [hq] at h'
              exact absurd h' (by simp)
            · omega
          have hacc1 : acc.1 = p.r := by
            have : acc.1 ≤ (scanFrom threshold (i + 1) rest acc).1 := m1
            rw [hq'] at hr
            omega
          have hsome : ∃ j, acc.2 = some j := by
            cases hacc : acc.2 with
            | none =>
              have := h1 hacc
              have hpos := laserQual_pos (hq' ▸ hq)
              omega
            | some j => exact ⟨j, rfl⟩
          rcases hsome with ⟨j, hj⟩
          have hji := h2 j hj
          rcases m3 with hout | ⟨k', q', hk', hk2', hq'', hout, hlt'⟩
          · rw [hout]
            exact ⟨j, hj, by omega⟩
          · rw [hout] at hr
            rw [hq'] at hr
            simp at hr
            omega
        | succ k' =>
          have h5 := m5 k' q (by simpa using hk) ?_ hq ?_
          · rcases h5 with ⟨j, hj, hjle⟩
            exact ⟨j, hj, by omega⟩
          · have : (i + 1) + k' = i + (k' + 1) := by omega
            rw [this]
            exact hk2
          · exact hr

/-- Claim C9: for every pixel buffer the SHOOT scan returns none exactly
when no sampled pixel qualifies, and otherwise the index of a sampled
qualifying pixel whose red value is maximal among all sampled qualifying
pixels; a pixel qualifies iff red > threshold and red > green * 1.5 and
red > blue * 1.5, tracked in one linear pass with a running maximum. -/
theorem detectLaser_brightest (threshold : ℕ) (pixels : List Pixel) :
    (detectLaser threshold pixels = none ↔
      ∀ k p, pixels.get? k = some p → k % 2 = 0 → laserQual threshold p = false) ∧
    (∀ j, detectLaser threshold pixels = some j →
      ∃ p, pixels.get? j = some p ∧ laserQual threshold p = true ∧
        ∀ k q, pixels.get? k = some q → k % 2 = 0 → laserQual threshold q = true →
          q.r ≤ p.r) := by
  have hm := scanFrom_spec threshold pixels 0 (0, none) (fun _ => rfl)
    (fun j hj => by simp at hj)
  rcases hm with ⟨m1, m2, m3, m4, m5⟩
  simp only [Nat.zero_add] at m3 m4 m5
  constructor
  · constructor
    · intro h k p hk hk2
      by_contra hq
      have hq' : laserQual threshold p = true := Bool.not_eq_false _ |>.mp hq
      have hle := m4 k p hk hk2 hq'
      have hout : scanFrom threshold 0 pixels (0, none) = (0, none) := by
        rcases m3 with hout | ⟨k', q', _, _, _, hout, _⟩
        · exact hout
        · rw [detectLaser, hout] at h
          simp at h
      rw [hout] at hle
      have := laserQual_pos hq'
      omega
    · intro h
      rcases m3 with hout | ⟨k, q, hk, hk2, hq, hout, _⟩
      · simp [detectLaser, hout]
      · have := h k q hk hk2
        rw [hq] at this
        exact absurd this (by simp)
  · intro j hj
    rcases m3 with hout | ⟨k, q, hk, hk2, hq, hout, _⟩
    · rw [detectLaser, hout] at hj
      simp at hj
    · rw [detectLaser, hout] at hj
      simp only [Option.some_inj] at hj
      subst hj
      refine ⟨q, hk, hq, ?_⟩
      intro k' q' hk' hk2' hq'
      have := m4 k' q' hk' hk2' hq'
      rw [hout] at this
      exact this

/-- Claim C10: the SHOOT scan samples only even pixel indices (the byte loop
steps 8 over RGBA data), so any returned winner has an even index and a
qualifying pixel at an odd index alone is never returned; among sampled
qualifying pixels sharing the maximal red value the earliest in scan order
wins; and the detector is a plain function of buffer and threshold. -/
theorem detectLaser_stride (threshold : ℕ) (pixels : List Pixel) :
    (∀ j, detectLaser threshold pixels = some j → j % 2 = 0 ∧
      ∃ p, pixels.get? j = some p ∧ laserQual threshold p = true ∧
        ∀ k q, pixels.get? k = some q → k % 2 = 0 → laserQual threshold q = true →
          q.r = p.r → j ≤ k) ∧
    (∀ p₀ p₁ : Pixel, laserQual threshold p₀ = false → laserQual threshold p₁ = true →
      detectLaser threshold [p₀, p₁] = none) := by
  have hm := scanFrom_spec threshold pixels 0 (0, none) (fun _ => rfl)
    (fun j hj => by simp at hj)
  rcases hm with ⟨m1, m2, m3, m4, m5⟩
  simp only [Nat.zero_add] at m3 m4 m5
  constructor
  · intro j hj
    rcases m3 with hout | ⟨k, q, hk, hk2, hq, hout, _⟩
    · rw [detectLaser, hout] at hj
      simp at hj
    · rw [detectLaser, hout] at hj
      simp only [Option.some_inj] at hj
      subst hj
      refine ⟨hk2, q, hk, hq, ?_⟩
      intro k' q' hk' hk2' hq' hr
      have hr' : q'.r = (scanFrom threshold 0 pixels (0, none)).1 := by
        rw [hout]
        exact hr
      have h5 := m5 k' q' hk' hk2' hq' hr'
      rcases h5 with ⟨j', hj', hjle⟩
      rw [hout] at hj'
      simp only [Option.some_inj] at hj'
      omega
  · intro p₀ p₁ h0 h1
    simp [detectLaser, scanFrom, h0]

/-- Ring-score formula of handleShot as a function of the real distance d:
rawScore = 10 - floor((d / 250) * 10), then clamped to [0, 10] by
max(0, min(10, rawScore)). -/
noncomputable def scoreOfDist (d : ℝ) : ℤ :=
  max 0 (min 10 (10 - ⌊d / 250 * 10⌋))

/-- Shot score computed by handleShot: Euclidean distance from the logical
point to the target center (250, 350), then the ring formula. -/
noncomputable def shotScore (tx ty : ℝ) : ℤ :=
  scoreOfDist (Real.sqrt ((tx - 250) ^ 2 + (ty - 350) ^ 2))

/-- Scoring formula in the words of the spec: 10 - floor(10 * d / maxRadius)
clamped to [0, 10], with maxRadius = 250. -/
noncomputable def specScore (d : ℝ) : ℤ :=
  max 0 (min 10 (10 - ⌊10 * d / 250⌋))

/-- Computable shot score over rational logical coordinates, used by the
state-machine embedding; floor(sqrt D / 25) is computed as
Nat.sqrt (floor (D / 625)) and proved equal to the real formula below. -/
def shotScoreQ (tx ty : ℚ) : ℤ :=
  max 0 (min 10 (10 - (Nat.sqrt ⌊((tx - 250) ^ 2 + (ty - 350) ^ 2) / 625⌋₊ : ℤ)))

lemma intFloor_sqrt_eq (x : ℝ) (hx : 0 ≤ x) :
    ⌊Real.sqrt x⌋ = (Nat.sqrt ⌊x⌋₊ : ℤ) := by
  rw [Int.floor_eq_iff]
  constructor
  · rw [show ((Nat.sqrt ⌊x⌋₊ : ℤ) : ℝ) = ((Nat.sqrt ⌊x⌋₊ : ℕ) : ℝ) by push_cast; ring]
    rw [Real.le_sqrt (by positivity) hx]
    calc ((Nat.sqrt ⌊x⌋₊ : ℕ) : ℝ) ^ 2 = ((Nat.sqrt ⌊x⌋₊ ^ 2 : ℕ) : ℝ) := by push_cast; ring
      _ ≤ (⌊x⌋₊ : ℝ) := by
          have h2 : Nat.sqrt ⌊x⌋₊ ^ 2 ≤ ⌊x⌋₊ := Nat.sqrt_le' _
          exact_mod_cast h2
      _ ≤ x := Nat.floor_le hx
  · have h2 : ⌊x⌋₊ < (Nat.sqrt ⌊x⌋₊ + 1) ^ 2 := Nat.lt_succ_sqrt' _
    have h4 : x < (⌊x⌋₊ : ℝ) + 1 := Nat.lt_floor_add_one x
    have h5 : ((⌊x⌋₊ : ℝ) + 1) ≤ (((Nat.sqrt ⌊x⌋₊ + 1) ^ 2 : ℕ) : ℝ) := by
      exact_mod_cast Nat.succ_le_of_lt h2
    have h3 : x < ((Nat.sqrt ⌊x⌋₊ : ℝ) + 1) ^ 2 := by
      calc x < (⌊x⌋₊ : ℝ) + 1 := h4
        _ ≤ (((Nat.sqrt ⌊x⌋₊ + 1) ^ 2 : ℕ) : ℝ) := h5
        _ = ((Nat.sqrt ⌊x⌋₊ : ℝ) + 1) ^ 2 := by push_cast; ring
    have h6 := (Real.sqrt_lt' (y := (Nat.sqrt ⌊x⌋₊ : ℝ) + 1) (by positivity)).mpr h3
    calc Real.sqrt x < (Nat.sqrt ⌊x⌋₊ : ℝ) + 1 := h6
      _ = ((Nat.sqrt ⌊x⌋₊ : ℤ) : ℝ) + 1 := by push_cast; ring

lemma natFloor_ratCast (q : ℚ) : ⌊(q : ℝ)⌋₊ = ⌊q⌋₊ := by
  rw [← Int.floor_toNat, ← Int.floor_toNat, Rat.floor_cast]

/-- The computable rational score agrees with the source's real formula. -/
theorem shotScoreQ_eq (tx ty : ℚ) : shotScoreQ tx ty = shotScore (tx : ℝ) (ty : ℝ) := by
  unfold shotScoreQ shotScore scoreOfDist
  have hcast : (((tx - 250) ^ 2 + (ty - 350) ^ 2 : ℚ) : ℝ) =
      ((tx : ℝ) - 250) ^ 2 + ((ty : ℝ) - 350) ^ 2 := by push_cast; ring
  set Dq : ℚ := (tx - 250) ^ 2 + (ty - 350) ^ 2 with hDq
  have hD0 : (0 : ℚ) ≤ Dq := by positivity
  have hR0 : (0 : ℝ) ≤ (Dq : ℝ) := by exact_mod_cast hD0
  have harg : Real.sqrt ((Dq : ℝ)) / 250 * 10 = Real.sqrt ((Dq : ℝ) / 625) := by
    rw [Real.sqrt_div hR0 625]
    rw [show (625 : ℝ) = 25 ^ 2 by norm_num, Real.sqrt_sq (by norm_num : (0 : ℝ) ≤ 25)]
    ring
  rw [← hcast, harg, intFloor_sqrt_eq _ (by positivity)]
  have hc2 : ((Dq / 625 : ℚ) : ℝ) = (Dq : ℝ) / 625 := by push_cast; ring
  rw [← hc2, natFloor_ratCast]

/-- Claim C5: the shot score is the clamped ring formula of the Euclidean
distance d to the center (250, 350) with maxRadius 250; it is 10 at d = 0
(in particular at the exact center), 0 whenever d is at least 250, and
non-increasing in d; the computable rational score used by the round model
agrees with it. -/
theorem shotScore_ring_formula :
    (∀ tx ty : ℝ, shotScore tx ty =
      specScore (Real.sqrt ((tx - 250) ^ 2 + (ty - 350) ^ 2))) ∧
    scoreOfDist 0 = 10 ∧
    shotScore 250 350 = 10 ∧
    (∀ d : ℝ, 250 ≤ d → scoreOfDist d = 0) ∧
    (∀ d₁ d₂ : ℝ, d₁ ≤ d₂ → scoreOfDist d₂ ≤ scoreOfDist d₁) ∧
    (∀ tx ty : ℚ, shotScoreQ tx ty = shotScore (tx : ℝ) (ty : ℝ)) := by
  have hform : ∀ d : ℝ, d / 250 * 10 = 10 * d / 250 := fun d => by ring
  refine ⟨?_, ?_, ?_, ?_, ?_, shotScoreQ_eq⟩
  · intro tx ty
    unfold shotScore scoreOfDist specScore
    rw [hform]
  · unfold scoreOfDist
    norm_num
  · unfold shotScore
    norm_num [Real.sqrt_zero]
    unfold scoreOfDist
    norm_num
  · intro d hd
    have h10 : (10 : ℤ) ≤ ⌊d / 250 * 10⌋ := by
      rw [Int.le_floor]
      rw [div_mul_eq_mul_div, le_div_iff₀ (by norm_num : (0 : ℝ) < 250)]
      push_cast
      linarith
    unfold scoreOfDist
    omega
  · intro d₁ d₂ hle
    have hmono : ⌊d₁ / 250 * 10⌋ ≤ ⌊d₂ / 250 * 10⌋ := by
      apply Int.floor_le_floor
      have : d₁ / 250 ≤ d₂ / 250 := by linarith
      nlinarith
    unfold scoreOfDist
    omega

/-- The session modes of the trainer. -/
inductive AppMode where
  | SETUP
  | SHOOT
  | ROUND_OVER
deriving DecidableEq

/-- One accepted shot: logical coordinates, ring score, acceptance time and
the round id stamped on it (history length + 1 at acceptance time). -/
structure Shot where
  x : ℚ
  y : ℚ
  score : ℤ
  timestamp : ℤ
  roundId : ℕ
deriving DecidableEq

/-- One sealed round of the history: number, total score, the five shots,
and the sealing time (standing for the source's time string). -/
structure RoundHistory where
  roundNumber : ℕ
  totalScore : ℤ
  shots : List Shot
  finishedAt : ℤ
deriving DecidableEq

/-- The mutable state of the LaserTrainer component that the claims are
about.  transform models transformMatrixRef (the cv.Mat produced by
cv.getPerspectiveTransform is opaque external data; the model stores the
ordered source corners it was computed from, and its presence is what the
invariants inspect).  cooldownDeadline models the pending 1-second
setTimeout of the cooldown effect (none when no timer is scheduled);
pendingFinish models the uncancelled finishRound timeouts scheduled by
handleShot, each with its fire time and the captured shot list. -/
structure TrainerState where
  mode : AppMode
  transform : Option (Point × Point × Point × Point)
  currentRoundShots : List Shot
  history : List RoundHistory
  cooldownRemaining : ℕ
  cooldownDeadline : Option ℤ
  lastShotTimestamp : ℤ
  targetFound : Bool
  pendingFinish : List (ℤ × List Shot)
deriving DecidableEq

/-- The initial state: SETUP, no transform, empty round and history,
cooldown 0, lastShotTimestampRef initialized to 0. -/
def initState : TrainerState :=
  { mode := AppMode.SETUP, transform := none, currentRoundShots := [], history := [],
    cooldownRemaining := 0, cooldownDeadline := none, lastShotTimestamp := 0,
    targetFound := false, pendingFinish := [] }

/-- Total score of a shot list, as the source's reduce((a, b) => a + b.score, 0). -/
def totalScoreOf (shots : List Shot) : ℤ :=
  shots.foldl (fun a b => a + b.score) 0

/-- The finishRound callback: prepends the sealed round (number = history
length + 1, total = sum of the captured shots' scores) to the history and
moves to ROUND_OVER.  It runs whenever its timeout fires; the source never
cancels it and it checks nothing about the current mode. -/
def finishRound (s : TrainerState) (shots : List Shot) (t : ℤ) : TrainerState :=
  let entry : RoundHistory :=
    { roundNumber := s.history.length + 1
      totalScore := totalScoreOf shots
      shots := shots
      finishedAt := t }
  { s with
    history := entry :: s.history,
    mode := AppMode.ROUND_OVER }

/-- handleShot at time t for mapped logical point (tx, ty): debounce check
against lastShotTimestampRef, then record the shot, start the 3-second
cooldown (next decrement scheduled 1000 ms later) and, on the 5th shot,
schedule finishRound 1500 ms later with the updated shot list. -/
def handleShot (s : TrainerState) (t : ℤ) (tx ty : ℚ) : TrainerState :=
  if t - s.lastShotTimestamp < 500 then s
  else
    let newShot : Shot :=
      { x := tx
        y := ty
        score := shotScoreQ tx ty
        timestamp := t
        roundId := s.history.length + 1 }
    let updated := s.currentRoundShots ++ [newShot]
    { s with
      lastShotTimestamp := t,
      cooldownRemaining := 3,
      cooldownDeadline := some (t + 1000),
      currentRoundShots := updated,
      pendingFinish :=
        if 5 ≤ updated.length then s.pendingFinish ++ [(t + 1500, updated)]
        else s.pendingFinish }

/-- Bounds gate of processFrame: the mapped point must lie in the logical
rectangle 500 x 700 extended by 20 units on each side. -/
def inBounds (tx ty : ℚ) : Bool :=
  decide (-20 ≤ tx) && decide (tx ≤ 520) && decide (-20 ≤ ty) && decide (ty ≤ 720)

/-- One SHOOT-mode pass of processFrame at time t.  det is the logical
point the frame's laser detection maps to under the active transform (the
pixel scan itself is detectLaser above; the perspective mapping is external
cv code), or none when no pixel qualifies.  Detection requires SHOOT mode,
a transform and zero cooldown, then the 500 ms debounce gate, then the
bounds gate.  In SETUP mode the frame only runs the external quadrilateral
search, which touches none of the modelled fields. -/
def processFrame (s : TrainerState) (t : ℤ) (det : Option (ℚ × ℚ)) : TrainerState :=
  if s.mode = AppMode.SHOOT ∧ s.transform.isSome = true ∧ s.cooldownRemaining = 0 then
    if t - s.lastShotTimestamp < 500 then s
    else
      match det with
      | none => s
      | some (tx, ty) => if inBounds tx ty = true then handleShot s t tx ty else s
  else s

/-- lockTarget: orders the corners, replaces the transform with the matrix
computed from them (cv.getPerspectiveTransform always returns a Mat object,
with no degeneracy check anywhere on this path), enters SHOOT and clears the
in-progress shots.  It does not touch cooldown, history, the debounce
timestamp or the pending finish timers. -/
def lockTarget (s : TrainerState) (quad : List Point) : TrainerState :=
  { s with
    transform := some (orderCorners quad),
    mode := AppMode.SHOOT,
    currentRoundShots := [] }

/-- resetToSetup: back to SETUP, clears the found flag, the in-progress
shots and the cooldown (which cancels the pending cooldown tick via the
effect cleanup).  It does not touch the transform, the history, the
debounce timestamp or the pending finish timers. -/
def resetToSetup (s : TrainerState) : TrainerState :=
  { s with
    mode := AppMode.SETUP,
    targetFound := false,
    currentRoundShots := [],
    cooldownRemaining := 0,
    cooldownDeadline := none }

/-- startNewRound: re-enters SHOOT with cleared shots and zero cooldown,
reusing the existing transform. -/
def startNewRound (s : TrainerState) : TrainerState :=
  { s with
    mode := AppMode.SHOOT,
    cooldownRemaining := 0,
    cooldownDeadline := none,
    currentRoundShots := [] }

/-- The cooldown effect's 1-second timeout firing at time t: decrements the
counter and, while it stays positive, schedules the next tick 1000 ms
later.  A timeout never fires before its deadline. -/
def cooldownTick (s : TrainerState) (t : ℤ) : TrainerState :=
  match s.cooldownDeadline with
  | none => s
  | some d =>
      if d ≤ t ∧ 0 < s.cooldownRemaining then
        { s with
          cooldownRemaining := s.cooldownRemaining - 1,
          cooldownDeadline :=
            if 1 < s.cooldownRemaining then some (t + 1000) else none }
      else s

/-- The earliest pending finishRound timeout firing at time t (never before
its scheduled time). -/
def finishFire (s : TrainerState) (t : ℤ) : TrainerState :=
  match s.pendingFinish with
  | [] => s
  | (ft, shots) :: rest =>
      if ft ≤ t then finishRound { s with pendingFinish := rest } shots t else s

/-- The events of one session: per-frame passes, the three user commands,
and the two timer callbacks.  lock carries the corner points being locked
(the MANUAL path's user-placed corners; in AUTO they come from the external
quadrilateral search). -/
inductive Ev where
  | frame (t : ℤ) (det : Option (ℚ × ℚ))
  | lock (t : ℤ) (quad : List Point)
  | reset (t : ℤ)
  | newRound (t : ℤ)
  | tick (t : ℤ)
  | fire (t : ℤ)
deriving DecidableEq

/-- One step of the session.  The user commands are consumed only in the
modes in which the UI renders their buttons: lock in SETUP, startNewRound
in ROUND_OVER, resetToSetup in SHOOT or ROUND_OVER (the spec allows it from
any state; the guard only shrinks the reachable set). -/
def step (s : TrainerState) (e : Ev) : TrainerState :=
  match e with
  | Ev.frame t det => processFrame s t det
  | Ev.lock _ quad => if s.mode = AppMode.SETUP then lockTarget s quad else s
  | Ev.reset _ => resetToSetup s
  | Ev.newRound _ => if s.mode = AppMode.ROUND_OVER then startNewRound s else s
  | Ev.tick t => cooldownTick s t
  | Ev.fire t => finishFire s t

/-- Running a sequence of events. -/
def run (s : TrainerState) (es : List Ev) : TrainerState :=
  es.foldl step s

/-- The timestamp an event carries. -/
def evTime : Ev → ℤ
  | Ev.frame t _ => t
  | Ev.lock t _ => t
  | Ev.reset t => t
  | Ev.newRound t => t
  | Ev.tick t => t
  | Ev.fire t => t

/-- Event times are nondecreasing starting from t. -/
def chronFrom (t : ℤ) : List Ev → Bool
  | [] => true
  | e :: es => decide (t ≤ evTime e) && chronFrom (evTime e) es

/-- The time after running the events, for threading chronology. -/
def endTimeFrom (t : ℤ) : List Ev → ℤ
  | [] => t
  | e :: es => endTimeFrom (evTime e) es

/-- An event was accepted as a shot exactly when it grew the in-progress
round by one (only handleShot ever grows it). -/
def shotAccepted (s : TrainerState) (e : Ev) : Bool :=
  decide ((step s e).currentRoundShots.length = s.currentRoundShots.length + 1)

/-- The three user commands that change mode (and zero or bypass cooldown). -/
def isModeCommand : Ev → Bool
  | Ev.lock _ _ => true
  | Ev.reset _ => true
  | Ev.newRound _ => true
  | _ => false

/-- The demo quadrilateral of the spec's scenario section. -/
def demoQuad : List Point := [(100, 100), (500, 100), (500, 400), (100, 400)]

lemma run_append (s : TrainerState) (l₁ l₂ : List Ev) :
    run s (l₁ ++ l₂) = run (run s l₁) l₂ := by
  simp [run, List.foldl_append]

lemma run_cons (s : TrainerState) (e : Ev) (es : List Ev) :
    run s (e :: es) = run (step s e) es := rfl

lemma step_frame_eq (s : TrainerState) (t : ℤ) (det : Option (ℚ × ℚ)) :
    step s (Ev.frame t det) = s ∨
    ∃ tx ty, det = some (tx, ty) ∧
      s.mode = AppMode.SHOOT ∧ s.transform.isSome = true ∧ s.cooldownRemaining = 0 ∧
      ¬(t - s.lastShotTimestamp < 500) ∧ inBounds tx ty = true ∧
      step s (Ev.frame t det) = handleShot s t tx ty := by
  simp only [step]
  unfold processFrame
  by_cases h1 : s.mode = AppMode.SHOOT ∧ s.transform.isSome = true ∧ s.cooldownRemaining = 0
  · rw [if_pos h1]
    by_cases h2 : t - s.lastShotTimestamp < 500
    · rw [if_pos h2]
      exact Or.inl rfl
    · rw [if_neg h2]
      cases det with
      | none => exact Or.inl rfl
      | some p =>
        obtain ⟨tx, ty⟩ := p
        by_cases h3 : inBounds tx ty = true
        · refine Or.inr ⟨tx, ty, rfl, h1.1, h1.2.1, h1.2.2, h2, h3, ?_⟩
          show (if inBounds tx ty = true then handleShot s t tx ty else s) = _
          rw [if_pos h3]
        · refine Or.inl ?_
          show (if inBounds tx ty = true then handleShot s t tx ty else s) = s
          rw [if_neg h3]
  · rw [if_neg h1]
    exact Or.inl rfl

lemma frame_fix_of_recent {s : TrainerState} {t : ℤ} (det : Option (ℚ × ℚ))
    (h : t - s.lastShotTimestamp < 500) : step s (Ev.frame t det) = s := by
  simp only [step]
  unfold processFrame
  by_cases h1 : s.mode = AppMode.SHOOT ∧ s.transform.isSome = true ∧ s.cooldownRemaining = 0
  · rw [if_pos h1, if_pos h]
  · rw [if_neg h1]

lemma cooldownTick_cases (s : TrainerState) (t : ℤ) :
    cooldownTick s t = s ∨
    ∃ d, s.cooldownDeadline = some d ∧ d ≤ t ∧ 0 < s.cooldownRemaining ∧
      cooldownTick s t =
        { s with
          cooldownRemaining := s.cooldownRemaining - 1,
          cooldownDeadline :=
            if 1 < s.cooldownRemaining then some (t + 1000) else none } := by
  unfold cooldownTick
  split
  · exact Or.inl rfl
  next d hd =>
    by_cases hcond : d ≤ t ∧ 0 < s.cooldownRemaining
    · rw [if_pos hcond]
      exact Or.inr ⟨d, hd, hcond.1, hcond.2, rfl⟩
    · rw [if_neg hcond]
      exact Or.inl rfl

lemma finishFire_cases (s : TrainerState) (t : ℤ) :
    finishFire s t = s ∨
    ∃ ft shots rest, s.pendingFinish = (ft, shots) :: rest ∧ ft ≤ t ∧
      finishFire s t = finishRound { s with pendingFinish := rest } shots t := by
  unfold finishFire
  split
  · exact Or.inl rfl
  next ft shots rest hp =>
    split_ifs with hft
    · exact Or.inr ⟨ft, shots, rest, hp, hft, rfl⟩
    · exact Or.inl rfl

lemma shotAccepted_eq_false_of_fix {s : TrainerState} {e : Ev} (h : step s e = s) :
    shotAccepted s e = false := by
  rw [shotAccepted, h]
  simp

lemma shotAccepted_frame {s : TrainerState} {t : ℤ} {det : Option (ℚ × ℚ)}
    (h : shotAccepted s (Ev.frame t det) = true) :
    (step s (Ev.frame t det)).lastShotTimestamp = t ∧
    (step s (Ev.frame t det)).cooldownRemaining = 3 ∧
    (step s (Ev.frame t det)).cooldownDeadline = some (t + 1000) ∧
    s.cooldownRemaining = 0 ∧ s.mode = AppMode.SHOOT ∧
    ¬(t - s.lastShotTimestamp < 500) := by
  rcases step_frame_eq s t det with he | ⟨tx, ty, hdet, hm, htr, hc, hdb, hb, he⟩
  · rw [shotAccepted, he] at h
    simp at h
  · rw [he]
    unfold handleShot
    rw [if_neg hdb]
    exact ⟨rfl, rfl, rfl, hc, hm, hdb⟩

lemma handleShot_last_mono (s : TrainerState) (t : ℤ) (tx ty : ℚ) :
    s.lastShotTimestamp ≤ (handleShot s t tx ty).lastShotTimestamp := by
  unfold handleShot
  by_cases h : t - s.lastShotTimestamp < 500
  · rw [if_pos h]
  · rw [if_neg h]
    show s.lastShotTimestamp ≤ t
    omega

lemma step_last_mono (s : TrainerState) (e : Ev) :
    s.lastShotTimestamp ≤ (step s e).lastShotTimestamp := by
  cases e with
  | frame t det =>
    rcases step_frame_eq s t det with he | ⟨tx, ty, _, _, _, _, _, _, he⟩
    · rw [he]
    · rw [he]
      exact handleShot_last_mono s t tx ty
  | lock t quad =>
    simp only [step]
    split_ifs <;> exact le_refl _
  | reset t => exact le_refl _
  | newRound t =>
    simp only [step]
    split_ifs <;> exact le_refl _
  | tick t =>
    show s.lastShotTimestamp ≤ (cooldownTick s t).lastShotTimestamp
    rcases cooldownTick_cases s t with he | ⟨d, _, _, _, he⟩ <;> rw [he]
  | fire t =>
    show s.lastShotTimestamp ≤ (finishFire s t).lastShotTimestamp
    rcases finishFire_cases s t with he | ⟨ft, shots, rest, _, _, he⟩
    · rw [he]
    · rw [he]
      show s.lastShotTimestamp ≤ s.lastShotTimestamp
      exact le_refl _

lemma run_last_mono : ∀ (es : List Ev) (s : TrainerState),
    s.lastShotTimestamp ≤ (run s es).lastShotTimestamp := by
  intro es
  induction es with
  | nil => intro s; exact le_refl _
  | cons e rest ih =>
    intro s
    exact le_trans (step_last_mono s e) (ih (step s e))

lemma chronFrom_append : ∀ (l₁ l₂ : List Ev) (t : ℤ),
    chronFrom t (l₁ ++ l₂) = true →
    chronFrom t l₁ = true ∧ chronFrom (endTimeFrom t l₁) l₂ = true := by
  intro l₁
  induction l₁ with
  | nil =>
    intro l₂ t h
    exact ⟨rfl, h⟩
  | cons e rest ih =>
    intro l₂ t h
    rw [List.cons_append, chronFrom, Bool.and_eq_true] at h
    obtain ⟨h1, h2⟩ := h
    have h3 := ih l₂ (evTime e) h2
    refine ⟨?_, h3.2⟩
    rw [chronFrom, Bool.and_eq_true]
    exact ⟨h1, h3.1⟩

lemma endTimeFrom_le : ∀ (l : List Ev) (t : ℤ),
    chronFrom t l = true → t ≤ endTimeFrom t l := by
  intro l
  induction l with
  | nil => intro t _; exact le_refl _
  | cons e rest ih =>
    intro t h
    rw [chronFrom, Bool.and_eq_true] at h
    have h1 : t ≤ evTime e := of_decide_eq_true h.1
    exact le_trans h1 (ih (evTime e) h.2)

/-- The invariant behind C1: a transform is present whenever the mode is
not SETUP, and whenever a finish timer is pending. -/
def HomographyInv (s : TrainerState) : Prop :=
  (s.mode ≠ AppMode.SETUP → s.transform.isSome = true) ∧
  (s.pendingFinish ≠ [] → s.transform.isSome = true)

lemma homographyInv_step {s : TrainerState} (h : HomographyInv s) (e : Ev) :
    HomographyInv (step s e) := by
  obtain ⟨h1, h2⟩ := h
  cases e with
  | frame t det =>
    rcases step_frame_eq s t det with he | ⟨tx, ty, _, _, htr, _, hdb, _, he⟩
    · rw [he]
      exact ⟨h1, h2⟩
    · rw [he]
      unfold handleShot
      rw [if_neg hdb]
      exact ⟨fun _ => htr, fun _ => htr⟩
  | lock t quad =>
    by_cases hm : s.mode = AppMode.SETUP
    · simp only [step]
      rw [if_pos hm]
      exact ⟨fun _ => rfl, fun _ => rfl⟩
    · simp only [step]
      rw [if_neg hm]
      exact ⟨h1, h2⟩
  | reset t =>
    exact ⟨fun hne => absurd rfl hne, fun hp => h2 hp⟩
  | newRound t =>
    by_cases hm : s.mode = AppMode.ROUND_OVER
    · have htr : s.transform.isSome = true := h1 (by rw [hm]; intro hc; cases hc)
      simp only [step]
      rw [if_pos hm]
      exact ⟨fun _ => htr, fun _ => htr⟩
    · simp only [step]
      rw [if_neg hm]
      exact ⟨h1, h2⟩
  | tick t =>
    show HomographyInv (cooldownTick s t)
    rcases cooldownTick_cases s t with he | ⟨d, _, _, _, he⟩ <;> rw [he] <;> exact ⟨h1, h2⟩
  | fire t =>
    show HomographyInv (finishFire s t)
    rcases finishFire_cases s t with he | ⟨ft, shots, rest, hpf, _, he⟩
    · rw [he]
      exact ⟨h1, h2⟩
    · rw [he]
      have htr : s.transform.isSome = true := h2 (by rw [hpf]; intro hc; cases hc)
      exact ⟨fun _ => htr, fun _ => htr⟩

lemma homographyInv_run : ∀ (es : List Ev) (s : TrainerState),
    HomographyInv s → HomographyInv (run s es) := by
  intro es
  induction es with
  | nil => intro s h; exact h
  | cons e rest ih => intro s h; exact ih (step s e) (homographyInv_step h e)

/-- Claim C1, as stated, is false: lock the target, then resetToSetup; the
state is back in SETUP but the transform matrix is still there, because
resetToSetup never touches transformMatrixRef (the ref is only replaced by
the next lockTarget or deleted on component unmount). -/
theorem homography_survives_reset :
    (run initState [Ev.lock 0 demoQuad, Ev.reset 100]).mode = AppMode.SETUP ∧
    (run initState [Ev.lock 0 demoQuad, Ev.reset 100]).transform.isSome = true := by
  exact ⟨by decide, by decide⟩

/-- Claim C1, amended: the forward direction holds — in every reachable
state, if the mode is SHOOT or ROUND_OVER then a computed transform exists.
The converse fails because resetToSetup does not discard the transform. -/
theorem homography_present_outside_setup (es : List Ev)
    (h : (run initState es).mode = AppMode.SHOOT ∨
      (run initState es).mode = AppMode.ROUND_OVER) :
    (run initState es).transform.isSome = true := by
  have hinit : HomographyInv initState :=
    ⟨fun hne => absurd rfl hne, fun hp => absurd rfl hp⟩
  have hinv := homographyInv_run es initState hinit
  refine hinv.1 ?_
  rcases h with h | h <;> rw [h] <;> intro hc <;> cases hc

/-- Witness for the amended C1 on a concrete locked session. -/
theorem homography_present_witness :
    (run initState [Ev.lock 0 demoQuad]).transform.isSome = true :=
  homography_present_outside_setup [Ev.lock 0 demoQuad] (Or.inl (by decide))

/-- The trace with which C2 fails on the code: a full round of 5 accepted
center hits (cooldown ticks between them), then resetToSetup 100 ms after
the 5th shot, while the 1500 ms finishRound timeout is still pending. -/
def c2Trace : List Ev :=
  [Ev.lock 0 demoQuad,
   Ev.frame 1000 (some (250, 350)), Ev.tick 2000, Ev.tick 3000, Ev.tick 4000,
   Ev.frame 4500 (some (250, 350)), Ev.tick 5500, Ev.tick 6500, Ev.tick 7500,
   Ev.frame 8000 (some (250, 350)), Ev.tick 9000, Ev.tick 10000, Ev.tick 11000,
   Ev.frame 11500 (some (250, 350)), Ev.tick 12500, Ev.tick 13500, Ev.tick 14500,
   Ev.frame 15000 (some (250, 350)),
   Ev.reset 15100]

/-- Claim C2 names a real bug: the source never cancels the finishRound
setTimeout scheduled by the 5th shot.  After resetToSetup the session is in
SETUP with empty history, yet the pending timer survives, and when it fires
at 16500 it seals the discarded round into the history and forces the mode
to ROUND_OVER — a stale timer mutating state that belongs to a later mode. -/
theorem stale_finish_timer_mutates :
    chronFrom 0 (c2Trace ++ [Ev.fire 16500]) = true ∧
    (run initState c2Trace).mode = AppMode.SETUP ∧
    (run initState c2Trace).history = [] ∧
    (run initState c2Trace).currentRoundShots = [] ∧
    (run initState c2Trace).pendingFinish ≠ [] ∧
    (run initState (c2Trace ++ [Ev.fire 16500])).mode = AppMode.ROUND_OVER ∧
    (run initState (c2Trace ++ [Ev.fire 16500])).history.length = 1 := by
  exact ⟨by decide, by decide, by decide, by decide, by decide, by decide, by decide⟩

/-- Modelled from the spec: a degenerate source quadrilateral — the claim's
"4 source corner points that are collinear or otherwise degenerate" — is one
with three collinear corners (the condition under which the exact 4-point
perspective solve of the external library is singular).  The source has no
degeneracy notion of its own. -/
def collinear3 (a b c : Point) : Bool :=
  decide ((b.1 - a.1) * (c.2 - a.2) - (b.2 - a.2) * (c.1 - a.1) = 0)

/-- Modelled from the spec: a 4-point list is degenerate when some three of
its corners are collinear. -/
def degenerateQuad : List Point → Bool
  | [a, b, c, d] =>
      collinear3 a b c || collinear3 a b d || collinear3 a c d || collinear3 b c d
  | _ => true

/-- Four collinear manual corners. -/
def degQuad : List Point := [(0, 0), (100, 100), (200, 200), (300, 300)]

/-- Claim C3, as stated, is false: locking four collinear corner points does
not fail — lockTarget performs no degeneracy check, stores whatever matrix
object the external call returns, and unconditionally enters SHOOT.  The
session does not remain in SETUP. -/
theorem lock_ignores_degeneracy_cex :
    degenerateQuad degQuad = true ∧
    (run initState [Ev.lock 0 degQuad]).mode = AppMode.SHOOT ∧
    (run initState [Ev.lock 0 degQuad]).transform.isSome = true := by
  refine ⟨?_, by decide, by decide⟩
  norm_num [degenerateQuad, degQuad, collinear3]

/-- Claim C3, amended: for every corner list, degenerate or not, a lock
command in SETUP transitions to SHOOT and installs a transform object; no
degeneracy check exists on this path. -/
theorem lock_always_transitions (s : TrainerState) (q : List Point) (t : ℤ)
    (h : s.mode = AppMode.SETUP) :
    (step s (Ev.lock t q)).mode = AppMode.SHOOT ∧
    (step s (Ev.lock t q)).transform.isSome = true := by
  simp only [step]
  rw [if_pos h]
  exact ⟨rfl, rfl⟩

/-- Witness for the amended C3 at the collinear quadrilateral. -/
theorem lock_always_transitions_witness :
    (step initState (Ev.lock 0 degQuad)).mode = AppMode.SHOOT ∧
    (step initState (Ev.lock 0 degQuad)).transform.isSome = true :=
  lock_always_transitions initState degQuad 0 rfl

lemma foldl_score_aux : ∀ (l : List Shot) (a : ℤ),
    l.foldl (fun x b => x + b.score) a = a + (l.map Shot.score).sum := by
  intro l
  induction l with
  | nil => intro a; simp
  | cons p rest ih =>
    intro a
    rw [List.foldl_cons, ih, List.map_cons, List.sum_cons]
    ring

lemma totalScoreOf_eq_sum (shots : List Shot) :
    totalScoreOf shots = (shots.map Shot.score).sum := by
  unfold totalScoreOf
  rw [foldl_score_aux]
  ring

/-- Round numbers most-recent-first: n, n-1, ..., 1. -/
def descNums : ℕ → List ℕ
  | 0 => []
  | n + 1 => (n + 1) :: descNums n

lemma step_history (s : TrainerState) (e : Ev) :
    (step s e).history = s.history ∨
    ∃ shots t, (step s e).history =
      { roundNumber := s.history.length + 1
        totalScore := totalScoreOf shots
        shots := shots
        finishedAt := t } :: s.history := by
  cases e with
  | frame t det =>
    rcases step_frame_eq s t det with he | ⟨tx, ty, _, _, _, _, hdb, _, he⟩
    · rw [he]
      exact Or.inl rfl
    · rw [he]
      unfold handleShot
      rw [if_neg hdb]
      exact Or.inl rfl
  | lock t quad =>
    simp only [step]
    split_ifs <;> exact Or.inl rfl
  | reset t => exact Or.inl rfl
  | newRound t =>
    simp only [step]
    split_ifs <;> exact Or.inl rfl
  | tick t =>
    have hse : step s (Ev.tick t) = cooldownTick s t := rfl
    rw [hse]
    rcases cooldownTick_cases s t with he | ⟨d, _, _, _, he⟩ <;> rw [he] <;> exact Or.inl rfl
  | fire t =>
    have hse : step s (Ev.fire t) = finishFire s t := rfl
    rw [hse]
    rcases finishFire_cases s t with he | ⟨ft, shots, rest, hpf, hft, he⟩
    · rw [he]
      exact Or.inl rfl
    · rw [he]
      exact Or.inr ⟨shots, t, rfl⟩

lemma numInv_step {s : TrainerState}
    (h : s.history.map RoundHistory.roundNumber = descNums s.history.length) (e : Ev) :
    (step s e).history.map RoundHistory.roundNumber = descNums (step s e).history.length := by
  rcases step_history s e with he | ⟨shots, t, he⟩
  · rw [he, h]
  · rw [he, List.map_cons, List.length_cons, h]
    rfl

lemma numInv_run : ∀ (es : List Ev) (s : TrainerState),
    s.history.map RoundHistory.roundNumber = descNums s.history.length →
    (run s es).history.map RoundHistory.roundNumber = descNums (run s es).history.length := by
  intro es
  induction es with
  | nil => intro s h; exact h
  | cons e rest ih => intro s h; exact ih (step s e) (numInv_step h e)

/-- Claim C4: (a) a 5th accepted shot in SHOOT fills the round to 5 shots
and schedules the round-completion delay carrying exactly those 5 shots;
(b) when that delay fires it moves the session to ROUND_OVER and prepends
exactly one history entry whose totalScore is the sum of the captured
shots' scores and whose number is the previous history length plus one;
(c) in every reachable state the history's round numbers read n, ..., 2, 1
most-recent-first, so numbering is strictly increasing over sealed rounds
only and a round discarded before sealing consumes no number. -/
theorem fifth_shot_seals_round :
    (∀ (s : TrainerState) (t : ℤ) (tx ty : ℚ),
      s.mode = AppMode.SHOOT → s.transform.isSome = true → s.cooldownRemaining = 0 →
      ¬(t - s.lastShotTimestamp < 500) → inBounds tx ty = true →
      s.currentRoundShots.length = 4 →
      (step s (Ev.frame t (some (tx, ty)))).currentRoundShots.length = 5 ∧
      (step s (Ev.frame t (some (tx, ty)))).pendingFinish =
        s.pendingFinish ++
          [(t + 1500, (step s (Ev.frame t (some (tx, ty)))).currentRoundShots)] ∧
      (step s (Ev.frame t (some (tx, ty)))).mode = AppMode.SHOOT) ∧
    (∀ (s : TrainerState) (t ft : ℤ) (shots : List Shot) (rest : List (ℤ × List Shot)),
      s.pendingFinish = (ft, shots) :: rest → ft ≤ t →
      (step s (Ev.fire t)).mode = AppMode.ROUND_OVER ∧
      (step s (Ev.fire t)).history =
        { roundNumber := s.history.length + 1
          totalScore := (shots.map Shot.score).sum
          shots := shots
          finishedAt := t } :: s.history ∧
      (step s (Ev.fire t)).pendingFinish = rest) ∧
    (∀ es : List Ev, (run initState es).history.map RoundHistory.roundNumber =
      descNums (run initState es).history.length) := by
  refine ⟨?_, ?_, ?_⟩
  · intro s t tx ty hm htr hc hdb hb hlen
    have hstep : step s (Ev.frame t (some (tx, ty))) = handleShot s t tx ty := by
      simp only [step]
      unfold processFrame
      rw [if_pos ⟨hm, htr, hc⟩, if_neg hdb]
      show (if inBounds tx ty = true then handleShot s t tx ty else s) = _
      rw [if_pos hb]
    rw [hstep]
    unfold handleShot
    rw [if_neg hdb]
    refine ⟨?_, ?_, hm⟩
    · show (s.currentRoundShots ++ [_]).length = 5
      rw [List.length_append, hlen]
      rfl
    · show (if 5 ≤ (s.currentRoundShots ++ [_]).length then _ else _) = _
      rw [List.length_append, hlen]
      norm_num
  · intro s t ft shots rest hpf hft
    have hstep : step s (Ev.fire t) = finishRound { s with pendingFinish := rest } shots t := by
      show finishFire s t = _
      unfold finishFire
      split
      next hnil => rw [hpf] at hnil; cases hnil
      next ft' shots' rest' hp =>
        rw [hpf] at hp
        injection hp with hp1 hp2
        injection hp1 with hpa hpb
        subst hpa
        subst hpb
        subst hp2
        rw [if_pos hft]
    rw [hstep]
    refine ⟨rfl, ?_, rfl⟩
    unfold finishRound
    rw [totalScoreOf_eq_sum]
  · intro es
    exact numInv_run es initState rfl

/-- Claim C7: two laser detections less than debounceMs = 500 ms apart never
both produce accepted shots.  If the earlier frame's detection was accepted,
the later frame is a complete no-op (the debounce gate compares against
lastShotTimestampRef, which only grows), so it appends nothing. -/
theorem debounce_suppresses_second (pre mid : List Ev) (t₁ t₂ : ℤ) (d₁ d₂ : ℚ × ℚ)
    (hlt : t₂ - t₁ < 500)
    (hacc : shotAccepted (run initState pre) (Ev.frame t₁ (some d₁)) = true) :
    step (run initState (pre ++ Ev.frame t₁ (some d₁) :: mid)) (Ev.frame t₂ (some d₂)) =
      run initState (pre ++ Ev.frame t₁ (some d₁) :: mid) ∧
    shotAccepted (run initState (pre ++ Ev.frame t₁ (some d₁) :: mid))
      (Ev.frame t₂ (some d₂)) = false := by
  have hrun : run initState (pre ++ Ev.frame t₁ (some d₁) :: mid) =
      run (step (run initState pre) (Ev.frame t₁ (some d₁))) mid := by
    rw [run_append, run_cons]
  have hlast₁ : (step (run initState pre) (Ev.frame t₁ (some d₁))).lastShotTimestamp = t₁ :=
    (shotAccepted_frame hacc).1
  have hmono : t₁ ≤ (run initState (pre ++ Ev.frame t₁ (some d₁) :: mid)).lastShotTimestamp := by
    rw [hrun]
    calc t₁ = (step (run initState pre) (Ev.frame t₁ (some d₁))).lastShotTimestamp :=
          hlast₁.symm
      _ ≤ _ := run_last_mono mid _
  have hrecent :
      t₂ - (run initState (pre ++ Ev.frame t₁ (some d₁) :: mid)).lastShotTimestamp < 500 := by
    omega
  have hfix := frame_fix_of_recent (some d₂) hrecent
  exact ⟨hfix, shotAccepted_eq_false_of_fix hfix⟩

/-- Witness for C7: an accepted center hit at t = 1000 suppresses the
detection 300 ms later. -/
theorem debounce_witness :
    shotAccepted (run initState ([Ev.lock 0 demoQuad] ++ Ev.frame 1000 (some (250, 350)) :: []))
      (Ev.frame 1300 (some (250, 350))) = false :=
  (debounce_suppresses_second [Ev.lock 0 demoQuad] [] 1000 1300 (250, 350) (250, 350)
    (by decide) (by decide)).2

/-- The cooldown invariant behind C8, relative to the bound B = accept time
plus 3000 ms: while the counter is positive a tick is scheduled whose
deadline plus the remaining 1000 ms decrements keeps the bound; once the
counter is zero, at least B milliseconds have passed. -/
def CdInv (B : ℤ) (s : TrainerState) (now : ℤ) : Prop :=
  (0 < s.cooldownRemaining → ∃ d, s.cooldownDeadline = some d ∧
    B ≤ d + 1000 * ((s.cooldownRemaining : ℤ) - 1)) ∧
  (s.cooldownRemaining = 0 → B ≤ now)

lemma cdInv_step {B : ℤ} {s : TrainerState} {now : ℤ} (e : Ev)
    (h : CdInv B s now) (ht : now ≤ evTime e) (hm : isModeCommand e = false) :
    CdInv B (step s e) (evTime e) := by
  obtain ⟨h1, h2⟩ := h
  cases e with
  | frame t det =>
    rcases step_frame_eq s t det with he | ⟨tx, ty, _, _, _, hc, hdb, _, he⟩
    · rw [he]
      exact ⟨h1, fun hz => le_trans (h2 hz) ht⟩
    · have hBt : B ≤ t := le_trans (h2 hc) ht
      rw [he]
      unfold handleShot
      rw [if_neg hdb]
      constructor
      · intro _
        refine ⟨t + 1000, rfl, ?_⟩
        push_cast
        linarith
      · intro hz
        exact absurd hz (by norm_num)
  | lock t quad => exact absurd hm (by simp [isModeCommand])
  | reset t => exact absurd hm (by simp [isModeCommand])
  | newRound t => exact absurd hm (by simp [isModeCommand])
  | tick t =>
    have hse : step s (Ev.tick t) = cooldownTick s t := rfl
    rw [hse]
    rcases cooldownTick_cases s t with he | ⟨d, hd, hdt, hcp, he⟩
    · rw [he]
      exact ⟨h1, fun hz => le_trans (h2 hz) ht⟩
    · rw [he]
      obtain ⟨d', hd', hbound⟩ := h1 hcp
      rw [hd] at hd'
      injection hd' with hdd
      subst hdd
      have hte : now ≤ t := ht
      constructor
      · intro hpos
        have hpos' : 0 < s.cooldownRemaining - 1 := hpos
        have h1c : 1 < s.cooldownRemaining := by omega
        refine ⟨t + 1000, ?_, ?_⟩
        · show (if 1 < s.cooldownRemaining then some (t + 1000) else none) = some (t + 1000)
          rw [if_pos h1c]
        · show B ≤ t + 1000 + 1000 * (((s.cooldownRemaining - 1 : ℕ) : ℤ) - 1)
          have hcast : ((s.cooldownRemaining - 1 : ℕ) : ℤ) = (s.cooldownRemaining : ℤ) - 1 := by
            omega
          rw [hcast]
          have : (1 : ℤ) < (s.cooldownRemaining : ℤ) := by exact_mod_cast h1c
          linarith
      · intro hz
        have hz' : s.cooldownRemaining - 1 = 0 := hz
        have hc1 : s.cooldownRemaining = 1 := by omega
        show B ≤ t
        rw [hc1] at hbound
        push_cast at hbound
        linarith
  | fire t =>
    have hse : step s (Ev.fire t) = finishFire s t := rfl
    rw [hse]
    rcases finishFire_cases s t with he | ⟨ft, shots, rest, hpf, hft, he⟩
    · rw [he]
      exact ⟨h1, fun hz => le_trans (h2 hz) ht⟩
    · rw [he]
      constructor
      · intro hpos
        exact h1 hpos
      · intro hz
        exact le_trans (h2 hz) ht

lemma cdInv_run {B : ℤ} : ∀ (es : List Ev) (s : TrainerState) (now : ℤ),
    CdInv B s now → chronFrom now es = true → (∀ e ∈ es, isModeCommand e = false) →
    CdInv B (run s es) (endTimeFrom now es) := by
  intro es
  induction es with
  | nil => intro s now h _ _; exact h
  | cons e rest ih =>
    intro s now h hc hm
    rw [chronFrom, Bool.and_eq_true] at hc
    have hte : now ≤ evTime e := of_decide_eq_true hc.1
    have h1 := cdInv_step e h hte (hm e (List.mem_cons_self _ _))
    exact ih (step s e) (evTime e) h1 hc.2 (fun e' he' => hm e' (List.mem_cons.mpr (Or.inr he')))

/-- Claim C8, as stated, is false: a shot accepted at t = 1000 starts the
3-second cooldown, but resetToSetup at 1100 zeroes the counter, a re-lock at
1200 re-enters SHOOT, and a detection at 1600 — 600 ms after the shot, well
inside the 3 seconds — is accepted again, with qualifying detections only
at the two frames shown. -/
theorem cooldown_bypass_cex :
    chronFrom 0 [Ev.lock 0 demoQuad, Ev.frame 1000 (some (250, 350)), Ev.reset 1100,
      Ev.lock 1200 demoQuad, Ev.frame 1600 (some (250, 350))] = true ∧
    shotAccepted (run initState [Ev.lock 0 demoQuad]) (Ev.frame 1000 (some (250, 350))) = true ∧
    shotAccepted (run initState [Ev.lock 0 demoQuad, Ev.frame 1000 (some (250, 350)),
      Ev.reset 1100, Ev.lock 1200 demoQuad]) (Ev.frame 1600 (some (250, 350))) = true ∧
    (1600 : ℤ) - 1000 < 3000 := by
  exact ⟨by decide, by decide, by decide, by decide⟩

/-- Claim C8, amended: within a continuous SHOOT period — no lockTarget,
resetToSetup or startNewRound between the two frames (these commands zero
or bypass the cooldown) — a second shot is accepted only once 3000 ms have
elapsed since the accepted shot, even with a qualifying detection in every
frame; detection is suppressed while the cooldown counter is nonzero. -/
theorem cooldown_blocks_within_shoot (pre mid post : List Ev) (t₁ t₂ : ℤ) (d₁ d₂ : ℚ × ℚ)
    (hchron : chronFrom 0
      (pre ++ Ev.frame t₁ (some d₁) :: (mid ++ Ev.frame t₂ (some d₂) :: post)) = true)
    (hmid : ∀ e ∈ mid, isModeCommand e = false)
    (hacc₁ : shotAccepted (run initState pre) (Ev.frame t₁ (some d₁)) = true)
    (hacc₂ : shotAccepted (run initState (pre ++ Ev.frame t₁ (some d₁) :: mid))
      (Ev.frame t₂ (some d₂)) = true) :
    t₁ + 3000 ≤ t₂ := by
  obtain ⟨hlast₁, hcd₁, hdl₁, _, _, _⟩ := shotAccepted_frame hacc₁
  have hinv₁ : CdInv (t₁ + 3000) (step (run initState pre) (Ev.frame t₁ (some d₁))) t₁ := by
    constructor
    · intro _
      refine ⟨t₁ + 1000, hdl₁, ?_⟩
      rw [hcd₁]
      push_cast
      linarith
    · intro hz
      rw [hcd₁] at hz
      exact absurd hz (by norm_num)
  have hch₁ := chronFrom_append pre (Ev.frame t₁ (some d₁) :: (mid ++ Ev.frame t₂ (some d₂) :: post)) 0 hchron
  have hch₂ := hch₁.2
  rw [chronFrom, Bool.and_eq_true] at hch₂
  have hch₃ := chronFrom_append mid (Ev.frame t₂ (some d₂) :: post) t₁ hch₂.2
  have hchmid : chronFrom t₁ mid = true := hch₃.1
  have hendle : endTimeFrom t₁ mid ≤ t₂ := by
    have := hch₃.2
    rw [chronFrom, Bool.and_eq_true] at this
    exact of_decide_eq_true this.1
  have hinv₂ := cdInv_run mid _ t₁ hinv₁ hchmid hmid
  have hrun : run initState (pre ++ Ev.frame t₁ (some d₁) :: mid) =
      run (step (run initState pre) (Ev.frame t₁ (some d₁))) mid := by
    rw [run_append, run_cons]
  obtain ⟨_, _, _, hc₂, _, _⟩ := shotAccepted_frame hacc₂
  rw [hrun] at hc₂
  have := hinv₂.2 hc₂
  omega

/-- Witness for the amended C8: after an accepted shot at t = 1000 and the
three cooldown ticks, the next accepted detection is at t = 4500, which is
indeed at least 1000 + 3000. -/
theorem cooldown_blocks_witness : (1000 : ℤ) + 3000 ≤ 4500 :=
  cooldown_blocks_within_shoot [Ev.lock 0 demoQuad]
    [Ev.tick 2000, Ev.tick 3000, Ev.tick 4000] [] 1000 4500 (250, 350) (250, 350)
    (by decide) (by decide) (by decide) (by decide)

end LaserTrainer
